import Mathlib

/-!
logmon: stats aggregation and alerting engine.

A shallow embedding of `main.go` of hoenigmann/logmon: section derivation
(`getSection`), ingestion (`Site.MonitorLine`, `Site.Monitor`,
`Section.Monitor`), the alert loop of `Site.AlertHighTraffic`, and the
summary printer `Site.printTopSections` together with the `PriorityQueue`
it drives through Go's `container/heap`.
-/

set_option autoImplicit false

namespace Logmon

/-! ## Strings -/

/-- A Go string is an immutable sequence of bytes; a byte is modelled by its
value. `len`, indexing and slicing of the source all count bytes. -/
abbrev GoString := List Nat

/-- The byte `'/'`. -/
def slashByte : Nat := 47

/-- The Go literal `"/"`. -/
def slash : GoString := [slashByte]

/-- The bytes of a string literal made of ASCII characters only (one byte per
character); used to write concrete paths. -/
def ascii (s : String) : GoString := s.toList.map Char.toNat

/-- Loop of `strings.Index`: the least offset at which `substr` occurs in the
remaining text, counted from `i`, or `-1`. -/
def stringsIndexFrom (substr : GoString) : GoString → Nat → Int
  | [], i => if substr.isPrefixOf [] then (i : Int) else -1
  | c :: s, i =>
    if substr.isPrefixOf (c :: s) then (i : Int) else stringsIndexFrom substr s (i + 1)

/-- Go's `strings.Index(s, substr)`: index of the first instance of `substr`
in `s`, or `-1` if `substr` is not present. -/
def stringsIndex (s substr : GoString) : Int := stringsIndexFrom substr s 0

/-- Function `getSection` of main.go, lines 146-160. -/
def getSection (path : GoString) : GoString :=
  if path.length > 1 then
    let index := stringsIndex path slash
    if index < (path.length : Int) ∧ index > -1 then
      let index := stringsIndex (path.drop 1) slash
      if index > -1 then
        path.take (index + 1).toNat
      else
        path
    else
      []
  else
    []

/-! ## Alert loop -/

/-- The two events printed by the alert loop. -/
inductive Event where
  | alert
  | recovery
  deriving DecidableEq, Repr

/-- One evaluation of the body of the `for` loop of `Site.AlertHighTraffic`
(lines 123-142): `avg` is the sampled `Average(2 * time.Minute)`, `threshold`
is `flagRatePerSec`, both read as exact numbers. Returns the new value of
`triggered` and the events printed, in order. -/
def alertStep (threshold : Int) (triggered : Bool) (avg : ℚ) : Bool × List Event :=
  let r1 : Bool × List Event :=
    if avg > (threshold : ℚ) ∧ triggered = false then (true, [Event.alert]) else (triggered, [])
  let r2 : Bool × List Event :=
    if avg < (threshold : ℚ) ∧ r1.1 = true then (false, [Event.recovery]) else (r1.1, [])
  (r2.1, r1.2 ++ r2.2)

/-- The loop of `Site.AlertHighTraffic` run over a finite sequence of sampled
averages from a given value of `triggered`; the events printed, in order. -/
def alertLoop (threshold : Int) : Bool → List ℚ → List Event
  | _, [] => []
  | triggered, avg :: rest =>
    (alertStep threshold triggered avg).2 ++
      alertLoop threshold (alertStep threshold triggered avg).1 rest

/-- Method `Site.AlertHighTraffic` over a finite sequence of samples: `triggered`
starts as `false` (line 120). -/
def AlertHighTraffic (threshold : Int) (samples : List ℚ) : List Event :=
  alertLoop threshold false samples

/-! ## Counters, sections and the site -/

/-- A `*sw.SlidingWindow` of github.com/prep/average, kept as the number of
increments it has received through `Add` (eviction of old buckets is not
modelled). -/
structure SlidingWindow where
  added : Nat
  deriving DecidableEq, Repr

/-- The window returned by `sw.MustNew`: nothing added yet. -/
def SlidingWindow.MustNew : SlidingWindow := ⟨0⟩

/-- The method `Add(v)` of a sliding window. -/
def SlidingWindow.Add (w : SlidingWindow) (v : Nat) : SlidingWindow := ⟨w.added + v⟩

/-- Modelled from the spec: the record type `parse.Line` of the repository's
`parse` package is not among the sources; main.go reads its fields `Path`
(a string) and `ResponseCode` (an int) only. -/
structure Line where
  Path : GoString
  ResponseCode : Int
  deriving DecidableEq, Repr

/-- Struct `Section` of main.go, lines 162-173. `window10Sec` is assigned by
`NewSection` and holds a window; the four class windows are pointer fields
that may be nil (`none`). The channel field `metric` is never used by any
operation and is left out. -/
structure Section where
  Name : GoString
  window10Sec : SlidingWindow
  window2xxResponseCode : Option SlidingWindow
  window3xxResponseCode : Option SlidingWindow
  window4xxResponseCode : Option SlidingWindow
  window5xxResponseCode : Option SlidingWindow
  AlertMax : Int
  priority : Int
  index : Int
  deriving DecidableEq, Repr

/-- Function `NewSection` of main.go, lines 175-182: `new(Section)` zeroes every field
(nil pointers, 0 integers), then `window10Sec`, `Name` and `AlertMax` are
assigned. -/
def NewSection (name : GoString) (alertMax : Int) : Section :=
  { Name := name
    window10Sec := SlidingWindow.MustNew
    window2xxResponseCode := none
    window3xxResponseCode := none
    window4xxResponseCode := none
    window5xxResponseCode := none
    AlertMax := alertMax
    priority := 0
    index := 0 }

/-- Method `Section.Monitor` of main.go, lines 184-186. -/
def Section.Monitor (s : Section) (_responseCode : Int) : Section :=
  { s with window10Sec := s.window10Sec.Add 1 }

/-- Method `Section.PriorityCount` of main.go, lines 188-192; `a` is the value
`window10Sec.Total(10 * time.Second)` returns at the time of the call. The
conversion `int(a)` is the identity on a 64-bit platform. -/
def Section.PriorityCount (s : Section) (a : Int) : Section × Int :=
  ({ s with priority := a }, a)

/-- A Go `map[string]*Section`, kept as an association list; every pointer
is held by one key only, so the pointed section is stored with its key. -/
abbrev SectionMap := List (GoString × Section)

/-- The assignment `m[k] = v`: overwrite the entry of `k` or add one. -/
def SectionMap.store : SectionMap → GoString → Section → SectionMap
  | [], k, v => [(k, v)]
  | (k', v') :: m, k, v =>
    if k' = k then (k, v) :: m else (k', v') :: SectionMap.store m k v

/-- The lookup `v, ok := m[k]`. -/
def SectionMap.get : SectionMap → GoString → Option Section
  | [], _ => none
  | (k', v') :: m, k => if k' = k then some v' else SectionMap.get m k

/-- The key set of the map, as a list. -/
def SectionMap.keys (m : SectionMap) : List GoString := m.map Prod.fst

/-- Struct `Site` of main.go, lines 64-72. All five windows are assigned by
`NewSite`. -/
structure Site where
  Name : GoString
  window2Min : SlidingWindow
  window2xxResponseCode : SlidingWindow
  window3xxResponseCode : SlidingWindow
  window4xxResponseCode : SlidingWindow
  window5xxResponseCode : SlidingWindow
  sections : SectionMap
  deriving DecidableEq, Repr

/-- Function `NewSite` of main.go, lines 74-84. -/
def NewSite (name : GoString) : Site :=
  { Name := name
    window2Min := SlidingWindow.MustNew
    window2xxResponseCode := SlidingWindow.MustNew
    window3xxResponseCode := SlidingWindow.MustNew
    window4xxResponseCode := SlidingWindow.MustNew
    window5xxResponseCode := SlidingWindow.MustNew
    sections := [] }

/-- Method `Site.Monitor` of main.go, lines 103-116; the cases are tried in the
order of the source. The default case only prints a diagnostic line to
standard output. -/
def Site.Monitor (s : Site) (responseCode : Int) : Site :=
  if responseCode > 199 ∧ responseCode < 300 then
    { s with window2xxResponseCode := s.window2xxResponseCode.Add 1 }
  else if responseCode > 499 ∧ responseCode < 600 then
    { s with window5xxResponseCode := s.window5xxResponseCode.Add 1 }
  else if responseCode > 399 ∧ responseCode < 500 then
    { s with window4xxResponseCode := s.window4xxResponseCode.Add 1 }
  else if responseCode > 299 ∧ responseCode < 400 then
    { s with window3xxResponseCode := s.window3xxResponseCode.Add 1 }
  else
    s

/-- Method `Site.MonitorLine` of main.go, lines 86-101. The result is `none` where
the Go code would dereference the nil pointer `s.sections[sectionName]`. -/
def Site.MonitorLine (s : Site) (line : Line) : Option Site :=
  let s1 : Site := { s with window2Min := s.window2Min.Add 1 }
  let sectionName := getSection line.Path
  let ALERT_MAX : Int := 10
  let s2 : Site :=
    match s1.sections.get sectionName with
    | some _ => s1
    | none => { s1 with sections := s1.sections.store sectionName (NewSection sectionName ALERT_MAX) }
  let s3 : Site := s2.Monitor line.ResponseCode
  match s3.sections.get sectionName with
  | some sec =>
    some { s3 with sections := s3.sections.store sectionName (sec.Monitor line.ResponseCode) }
  | none => none

/-- The loop of `main` (lines 56-61) over a finite sequence of parsed
records: each one is passed to `MonitorLine`. -/
def ingest : Site → List Line → Option Site
  | s, [] => some s
  | s, line :: rest =>
    match s.MonitorLine line with
    | some s' => ingest s' rest
    | none => none

/-- The records of the end-to-end scenario of the specification. -/
def scenario : List Line :=
  List.replicate 15 ⟨ascii "/api/x", 200⟩ ++ List.replicate 5 ⟨ascii "/api/y", 404⟩

/-! ## The priority queue and `container/heap` -/

/-- Type `PriorityQueue` of main.go, line 243: a slice of section pointers. Every
pointer occurs once in the slice, so the slice holds the sections. -/
abbrev PriorityQueue := List Section

/-- The priority of the element at position `k` (0 when out of range; the
heap operations only pass positions inside the slice). -/
def PriorityQueue.prioAt (pq : PriorityQueue) (k : Nat) : Int :=
  match pq[k]? with
  | some s => s.priority
  | none => 0

/-- Method `PriorityQueue.Len`, lines 245-247. -/
def PriorityQueue.Len (pq : PriorityQueue) : Nat := pq.length

/-- Method `PriorityQueue.Less`, lines 249-252. -/
def PriorityQueue.Less (pq : PriorityQueue) (i j : Nat) : Bool :=
  decide (pq.prioAt i > pq.prioAt j)

/-- Method `PriorityQueue.Swap`, lines 254-258. -/
def PriorityQueue.Swap (pq : PriorityQueue) (i j : Nat) : PriorityQueue :=
  match pq[i]?, pq[j]? with
  | some a, some b => (pq.set i { b with index := i }).set j { a with index := j }
  | _, _ => pq

/-- Method `PriorityQueue.Push`, lines 260-265. -/
def PriorityQueue.Push (pq : PriorityQueue) (x : Section) : PriorityQueue :=
  pq ++ [{ x with index := pq.length }]

/-- Method `PriorityQueue.Pop`, lines 267-274; `none` where `old[n-1]` is out of
range. -/
def PriorityQueue.Pop (pq : PriorityQueue) : Option (Section × PriorityQueue) :=
  match pq[pq.length - 1]? with
  | some item => some ({ item with index := -1 }, pq.take (pq.length - 1))
  | none => none

/-- The function `up` of Go's `container/heap`:
`for { i := (j - 1) / 2; if i == j || !h.Less(j, i) { break }; h.Swap(i, j); j = i }`.
For `j = 0` Go's truncated division gives `i = 0`, as does the subtraction
on naturals. -/
def up (h : PriorityQueue) (j : Nat) : PriorityQueue :=
  if (j - 1) / 2 = j ∨ h.Less j ((j - 1) / 2) = false then h
  else up (h.Swap ((j - 1) / 2) j) ((j - 1) / 2)
termination_by j
decreasing_by omega

/-- The function `down` of Go's `container/heap` (its boolean result, used by
`heap.Fix` and `heap.Remove` only, is dropped):
`for { j1 := 2*i + 1; if j1 >= n || j1 < 0 { break }; j := j1;
if j2 := j1 + 1; j2 < n && h.Less(j2, j1) { j = j2 };
if !h.Less(j, i) { break }; h.Swap(i, j); i = j }`. -/
def down (h : PriorityQueue) (i n : Nat) : PriorityQueue :=
  if 2 * i + 1 ≥ n then h
  else
    if h.Less (if 2 * i + 2 < n ∧ h.Less (2 * i + 2) (2 * i + 1) = true
        then 2 * i + 2 else 2 * i + 1) i = false then h
    else
      down (h.Swap i (if 2 * i + 2 < n ∧ h.Less (2 * i + 2) (2 * i + 1) = true
        then 2 * i + 2 else 2 * i + 1))
        (if 2 * i + 2 < n ∧ h.Less (2 * i + 2) (2 * i + 1) = true
          then 2 * i + 2 else 2 * i + 1) n
termination_by n - i
decreasing_by split <;> omega

/-- The loop of `heap.Init`: `down(h, i, n)` for `i = k-1, k-2, ..., 0`. -/
def heapInitLoop (n : Nat) : Nat → PriorityQueue → PriorityQueue
  | 0, h => h
  | k + 1, h => heapInitLoop n k (down h k n)

/-- Go's `heap.Init`: `n := h.Len(); for i := n/2 - 1; i >= 0; i-- { down(h, i, n) }`. -/
def heapInit (h : PriorityQueue) : PriorityQueue := heapInitLoop h.Len (h.Len / 2) h

/-- Go's `heap.Push`: `h.Push(x); up(h, h.Len()-1)`. -/
def heapPush (h : PriorityQueue) (x : Section) : PriorityQueue :=
  up (h.Push x) ((h.Push x).Len - 1)

/-- Go's `heap.Pop`: `n := h.Len() - 1; h.Swap(0, n); down(h, 0, n); return h.Pop()`.
The result is `none` on an empty queue, where Go indexes out of range. -/
def heapPop (h : PriorityQueue) : Option (Section × PriorityQueue) :=
  if h.Len = 0 then none
  else (down (h.Swap 0 (h.Len - 1)) 0 (h.Len - 1)).Pop

/-! ## The summary printer -/

/-- The lines `printTopSections` prints. -/
inductive OutLine where
  | header
  | noTraffic
  | entry (name : GoString) (priority : Int)
  | footer
  deriving DecidableEq, Repr

/-- The `range` loop of `printTopSections` (lines 222-226) over the map's
entries in the order the iteration yields them; `total k` is the value
`Total(10 * time.Second)` returns for the section stored under `k`. -/
def pushSections (total : GoString → Int) : List (GoString × Section) → PriorityQueue → PriorityQueue
  | [], pq => pq
  | (k, v) :: rest, pq => pushSections total rest (heapPush pq (v.PriorityCount (total k)).1)

/-- The counting loop of `printTopSections` (lines 232-238), with `i` the
loop variable and the first argument `len(s.sections) - i`: the loop is left
when `i < len(s.sections)` fails or, after the print, when `i > 4`. -/
def popLoop : Nat → Nat → PriorityQueue → Option (List OutLine)
  | 0, _, _ => some []
  | k + 1, i, pq =>
    match heapPop pq with
    | none => none
    | some (top, pq') =>
      if i > 4 then some [OutLine.entry top.Name top.priority]
      else (popLoop k (i + 1) pq').map (fun out => OutLine.entry top.Name top.priority :: out)

/-- Method `Site.printTopSections` of main.go, lines 217-240. `order` lists the
entries of `s.sections` in the order the map iteration yields them. -/
def Site.printTopSections (s : Site) (order : List (GoString × Section))
    (total : GoString → Int) : Option (List OutLine) :=
  let pq : PriorityQueue := heapInit []
  let pq := pushSections total order pq
  let notice : List OutLine := if s.sections.length ≤ 0 then [OutLine.noTraffic] else []
  match popLoop s.sections.length 0 pq with
  | some entries => some ([OutLine.header] ++ notice ++ entries ++ [OutLine.footer])
  | none => none

/-- The section entries among printed lines, as (name, count) pairs. -/
def sectionEntries : List OutLine → List (GoString × Int)
  | [] => []
  | OutLine.entry name priority :: rest => (name, priority) :: sectionEntries rest
  | _ :: rest => sectionEntries rest

/-! ## Specification vocabulary -/

/-- The section `MonitorLine` works on: the one stored under the name, or a
new one. -/
def sectionFor (m : SectionMap) (name : GoString) : Section :=
  match m.get name with
  | some sec => sec
  | none => NewSection name 10

/-- The state of a site that has ingested the records `done`. -/
structure Ingested (s : Site) (done : List Line) : Prop where
  total : s.window2Min.added = done.length
  nodup : s.sections.keys.Nodup
  keys : ∀ k, k ∈ s.sections.keys ↔ ∃ r ∈ done, getSection r.Path = k
  section_of : ∀ k sec, s.sections.get k = some sec →
    sec.Name = k ∧
    sec.window10Sec.added = done.countP (fun r => decide (getSection r.Path = k)) ∧
    sec.window2xxResponseCode = none ∧ sec.window3xxResponseCode = none ∧
    sec.window4xxResponseCode = none ∧ sec.window5xxResponseCode = none

/-- What the summary shows of a queued section: its name and its priority. -/
def entryOf (s : Section) : GoString × Int := (s.Name, s.priority)

/-- The child of `i` that `down` compares with `i`: the right child when it
is inside the first `n` elements and `Less` than the left one, else the left
child. -/
def downChild (h : PriorityQueue) (i n : Nat) : Nat :=
  if 2 * i + 2 < n ∧ h.Less (2 * i + 2) (2 * i + 1) = true then 2 * i + 2 else 2 * i + 1

/-- The first `n` elements satisfy the heap condition of `container/heap`
for `Less`: no element has a priority above that of its parent. -/
def HeapUpTo (pq : PriorityQueue) (n : Nat) : Prop :=
  ∀ k, 0 < k → k < n → pq.prioAt k ≤ pq.prioAt ((k - 1) / 2)

/-- The heap condition on the first `n` elements with the element at `i`
possibly too small for its children. -/
def DownInv (pq : PriorityQueue) (i n : Nat) : Prop :=
  (∀ k, 0 < k → k < n → (k - 1) / 2 ≠ i → pq.prioAt k ≤ pq.prioAt ((k - 1) / 2)) ∧
  (∀ k, 0 < k → k < n → (k - 1) / 2 = i → 0 < i → pq.prioAt k ≤ pq.prioAt ((i - 1) / 2))

/-- The heap condition on the whole queue with the element at `j` possibly
too large for its parent. -/
def UpInv (pq : PriorityQueue) (j : Nat) : Prop :=
  (∀ k, 0 < k → k < pq.length → k ≠ j → pq.prioAt k ≤ pq.prioAt ((k - 1) / 2)) ∧
  (∀ k, 0 < k → k < pq.length → (k - 1) / 2 = j → 0 < j →
    pq.prioAt k ≤ pq.prioAt ((j - 1) / 2))

/-- The summary line of a (name, count) pair. -/
def entryLine (e : GoString × Int) : OutLine := OutLine.entry e.1 e.2

/-- The (name, count) pair the summary can show for a registry entry: the
name of the section and the total sampled for its key. -/
def sampled (total : GoString → Int) (kv : GoString × Section) : GoString × Int :=
  (kv.2.Name, total kv.1)

/-- Six records, each of a section of its own. -/
def sixRecords : List Line :=
  [⟨ascii "/a/1", 200⟩, ⟨ascii "/b/1", 200⟩, ⟨ascii "/c/1", 200⟩,
   ⟨ascii "/d/1", 200⟩, ⟨ascii "/e/1", 200⟩, ⟨ascii "/f/1", 200⟩]

/-- A registry of two sections, as `MonitorLine` builds it from a record of
"/a" and a record of "/b". -/
def twoSections : SectionMap :=
  [(ascii "/a", (NewSection (ascii "/a") 10).Monitor 200),
   (ascii "/b", (NewSection (ascii "/b") 10).Monitor 200)]

/-- A site with the registry `twoSections`. -/
def twoSite : Site := { NewSite (ascii "DataDog") with sections := twoSections }

/-- Sampled totals for `twoSections`: 3 for "/a", 7 for every other key. -/
def twoTotals (k : GoString) : Int := if k = ascii "/a" then 3 else 7

/-! ## Section derivation -/

theorem stringsIndexFrom_byte (b : Nat) (s : GoString) (i : Nat) :
    stringsIndexFrom [b] s i = if b ∈ s then ((i + s.indexOf b : Nat) : Int) else -1 := by
  induction s generalizing i with
  | nil => simp [stringsIndexFrom, List.isPrefixOf]
  | cons c s ih =>
    by_cases hbc : b = c
    · subst hbc
      simp [stringsIndexFrom, List.isPrefixOf]
    · have hcb : ¬ c = b := fun h => hbc h.symm
      simp only [stringsIndexFrom, List.isPrefixOf, List.mem_cons, hbc, false_or,
        List.indexOf_cons_ne _ hcb, ih]
      have hb : (b == c && true) = false := by simp [hbc]
      rw [hb]
      simp only [Bool.false_eq_true, if_false]
      split_ifs
      · congr 1
        omega
      · rfl

theorem stringsIndex_slash (s : GoString) :
    stringsIndex s slash = if slashByte ∈ s then ((s.indexOf slashByte : Nat) : Int) else -1 := by
  simp [stringsIndex, slash, stringsIndexFrom_byte]

/-- The three outcomes of `getSection`, by membership of `'/'`. -/
theorem getSection_eq (p : GoString) :
    getSection p =
      if 1 < p.length then
        if slashByte ∈ p then
          if slashByte ∈ p.drop 1 then p.take ((p.drop 1).indexOf slashByte + 1) else p
        else []
      else [] := by
  unfold getSection
  by_cases h1 : 1 < p.length
  · simp only [gt_iff_lt, h1, if_true, stringsIndex_slash]
    by_cases h2 : slashByte ∈ p
    · have hlt : p.indexOf slashByte < p.length := List.indexOf_lt_length.mpr h2
      by_cases h3 : slashByte ∈ p.drop 1
      · simp only [h2, h3, if_true]
        have e : (((List.indexOf slashByte (List.drop 1 p) : Nat) : Int) + 1).toNat
            = List.indexOf slashByte (List.drop 1 p) + 1 := by omega
        rw [e]
        have c1 : ((List.indexOf slashByte p : Nat) : Int) < (p.length : Int) ∧
            ((List.indexOf slashByte p : Nat) : Int) > -1 := by constructor <;> omega
        have c2 : ((List.indexOf slashByte (List.drop 1 p) : Nat) : Int) > -1 := by omega
        simp only [c1, c2, and_self, if_true]
      · simp only [h2, h3, if_true, if_false]
        have c1 : ((List.indexOf slashByte p : Nat) : Int) < (p.length : Int) ∧
            ((List.indexOf slashByte p : Nat) : Int) > -1 := by constructor <;> omega
        simp [c1]
    · simp [h2]
  · simp [h1]

theorem indexOf_first (a : Nat) (l : List Nat) (k : Nat) (hk : l[k]? = some a)
    (hfirst : ∀ j, j < k → l[j]? ≠ some a) : l.indexOf a = k := by
  induction l generalizing k with
  | nil => simp at hk
  | cons c l ih =>
    cases k with
    | zero =>
      simp at hk
      subst hk
      simp
    | succ k =>
      have hc : c ≠ a := by
        intro h
        exact hfirst 0 (by omega) (by simp [h])
      rw [List.indexOf_cons_ne _ hc]
      congr 1
      apply ih
      · simpa using hk
      · intro j hj
        have := hfirst (j + 1) (by omega)
        simpa using this

theorem mem_of_getElem_eq (a : Nat) (l : List Nat) (k : Nat) (hk : l[k]? = some a) : a ∈ l := by
  rw [List.getElem?_eq_some] at hk
  obtain ⟨h, rfl⟩ := hk
  exact List.getElem_mem h

theorem not_mem_of_forall_getElem (a : Nat) (l : List Nat)
    (h : ∀ j : Nat, l[j]? ≠ some a) : a ∉ l := by
  intro hm
  obtain ⟨n, hn, e⟩ := List.getElem_of_mem hm
  exact h n (by rw [List.getElem?_eq_some]; exact ⟨hn, e⟩)

/-- With a `'/'` at index `i ≥ 1` and none at the indices `1..i-1`, the
section is `p[:i]`, whatever the first byte is, provided `p` holds a `'/'`. -/
theorem getSection_take (p : GoString) (i : Nat) (h1 : 1 ≤ i)
    (hi : p[i]? = some slashByte)
    (hfirst : ∀ k, 1 ≤ k → k < i → p[k]? ≠ some slashByte) :
    getSection p = p.take i := by
  have hlen : i < p.length := by
    rw [List.getElem?_eq_some] at hi
    exact hi.1
  have hmem : slashByte ∈ p := mem_of_getElem_eq _ _ _ hi
  have hd : (p.drop 1)[i - 1]? = some slashByte := by
    rw [List.getElem?_drop]
    have : 1 + (i - 1) = i := by omega
    rw [this]; exact hi
  have hmem1 : slashByte ∈ p.drop 1 := mem_of_getElem_eq _ _ _ hd
  have hidx : (p.drop 1).indexOf slashByte = i - 1 := by
    apply indexOf_first _ _ _ hd
    intro j hj
    rw [List.getElem?_drop]
    exact hfirst (1 + j) (by omega) (by omega)
  rw [getSection_eq]
  have hl : 1 < p.length := by omega
  simp only [hl, hmem, hmem1, if_true, hidx]
  congr 1
  omega

/-- A path of length above 1 that begins with `'/'` and has no other `'/'`
is its own section. -/
theorem getSection_whole (p : GoString) (hl : 1 < p.length)
    (h0 : p.head? = some slashByte)
    (hnone : ∀ k, 1 ≤ k → p[k]? ≠ some slashByte) :
    getSection p = p := by
  have hmem : slashByte ∈ p := by
    cases p with
    | nil => simp at h0
    | cons c l =>
      simp at h0
      simp [h0]
  have hmem1 : slashByte ∉ p.drop 1 := by
    apply not_mem_of_forall_getElem
    intro j
    rw [List.getElem?_drop]
    exact hnone (1 + j) (by omega)
  rw [getSection_eq, if_pos hl, if_pos hmem, if_neg hmem1]

theorem getSection_short (p : GoString) (hl : p.length ≤ 1) : getSection p = [] := by
  rw [getSection_eq]
  have : ¬ 1 < p.length := by omega
  simp [this]

theorem getSection_no_slash (p : GoString) (h : slashByte ∉ p) : getSection p = [] := by
  rw [getSection_eq]
  simp [h]

/-- C3: for a path that is empty or begins with '/', `getSection` is empty
when the length is at most 1; otherwise it is the prefix ending just before
the first '/' at an index at least 1, or the whole path when there is no
such '/'. The four cases of the specification are instances. -/
theorem getSection_spec (p : GoString) (hp : p = [] ∨ p.head? = some slashByte) :
    (p.length ≤ 1 → getSection p = []) ∧
    (1 < p.length →
      (∀ i, 1 ≤ i → p[i]? = some slashByte →
        (∀ k, 1 ≤ k → k < i → p[k]? ≠ some slashByte) → getSection p = p.take i) ∧
      ((∀ k, 1 ≤ k → p[k]? ≠ some slashByte) → getSection p = p)) ∧
    getSection (ascii "/api/users/5") = ascii "/api" ∧
    getSection (ascii "/foo") = ascii "/foo" ∧
    getSection (ascii "/") = ascii "" ∧
    getSection (ascii "") = ascii "" := by
  refine ⟨getSection_short p, fun hl => ⟨fun i h1 hi hf => getSection_take p i h1 hi hf, ?_⟩,
    by decide, by decide, by decide, by decide⟩
  intro hnone
  rcases hp with rfl | h0
  · simp at hl
  · exact getSection_whole p hl h0 hnone

/-- C3 at the path "/api/users/5": the section is its first 4 bytes. -/
theorem getSection_spec_witness :
    (ascii "/api/users/5" = [] ∨ (ascii "/api/users/5").head? = some slashByte) ∧
    getSection (ascii "/api/users/5") = (ascii "/api/users/5").take 4 :=
  ⟨by decide,
    ((getSection_spec (ascii "/api/users/5") (by decide)).2.1 (by decide)).1 4
      (by decide) (by decide) (by decide)⟩

/-- C9, as stated, fails at the path "foo": it is longer than 1 byte and has
no '/', yet its section is the empty string, not the path. -/
theorem getSection_no_slash_counterexample :
    1 < (ascii "foo").length ∧ (ascii "foo").count slashByte < 2 ∧
    getSection (ascii "foo") = [] ∧ getSection (ascii "foo") ≠ ascii "foo" := by
  decide

theorem count_lt_two_first (p : GoString) (i : Nat) (hc : p.count slashByte < 2)
    (hi : p[i]? = some slashByte) (k : Nat) (hk : k < i) : p[k]? ≠ some slashByte := by
  induction p generalizing i k with
  | nil => simp at hi
  | cons c l ih =>
    cases i with
    | zero => omega
    | succ i =>
      have hmem : slashByte ∈ l := mem_of_getElem_eq _ _ _ (by simpa using hi)
      have hpos : 0 < l.count slashByte := List.count_pos_iff.mpr hmem
      have hc' : c ≠ slashByte := by
        intro h
        rw [h, List.count_cons_self] at hc
        omega
      rw [List.count_cons_of_ne (Ne.symm hc')] at hc
      cases k with
      | zero => simpa using hc'
      | succ k =>
        have := ih i hc (by simpa using hi) k (by omega)
        simpa using this

/-- C9 (amended): for a path longer than 1 byte with fewer than two '/':
if it begins with '/' the section is the whole path; if it holds no '/' at
all the section is the empty string; and if its '/' stands at an index
`i ≥ 1` the section is `p[:i]`, the rule of the paths that begin with '/'. -/
theorem getSection_fewer_than_two_slashes (p : GoString) (hl : 1 < p.length)
    (hc : p.count slashByte < 2) :
    (p.head? = some slashByte → getSection p = p) ∧
    (slashByte ∉ p → getSection p = []) ∧
    (∀ i, 1 ≤ i → p[i]? = some slashByte → getSection p = p.take i) := by
  refine ⟨fun h0 => ?_, getSection_no_slash p, fun i h1 hi => ?_⟩
  · apply getSection_whole p hl h0
    intro k hk hk'
    have h00 : p[0]? = some slashByte := by
      cases p with
      | nil => simp at h0
      | cons c l => simpa using h0
    exact count_lt_two_first p k hc hk' 0 (by omega) h00
  · exact getSection_take p i h1 hi (fun k _ hk => count_lt_two_first p i hc hi k hk)

/-- C9 (amended) at the paths "ab/cd" and "foo". -/
theorem getSection_fewer_than_two_slashes_witness :
    (1 < (ascii "ab/cd").length ∧ (ascii "ab/cd").count slashByte < 2) ∧
    getSection (ascii "ab/cd") = (ascii "ab/cd").take 2 :=
  ⟨by decide,
    (getSection_fewer_than_two_slashes (ascii "ab/cd") (by decide) (by decide)).2.2 2
      (by decide) (by decide)⟩

/-! ## Response-code classification -/

/-- C1: `Site.Monitor c` adds 1 to the class window whose range holds `c` and
leaves the other three as they were; for `c` below 200 or above 599 all four
are left as they were. -/
theorem Site_Monitor_classes (s : Site) (c : Int) :
    (200 ≤ c ∧ c ≤ 299 →
      (s.Monitor c).window2xxResponseCode = s.window2xxResponseCode.Add 1 ∧
      (s.Monitor c).window3xxResponseCode = s.window3xxResponseCode ∧
      (s.Monitor c).window4xxResponseCode = s.window4xxResponseCode ∧
      (s.Monitor c).window5xxResponseCode = s.window5xxResponseCode) ∧
    (300 ≤ c ∧ c ≤ 399 →
      (s.Monitor c).window2xxResponseCode = s.window2xxResponseCode ∧
      (s.Monitor c).window3xxResponseCode = s.window3xxResponseCode.Add 1 ∧
      (s.Monitor c).window4xxResponseCode = s.window4xxResponseCode ∧
      (s.Monitor c).window5xxResponseCode = s.window5xxResponseCode) ∧
    (400 ≤ c ∧ c ≤ 499 →
      (s.Monitor c).window2xxResponseCode = s.window2xxResponseCode ∧
      (s.Monitor c).window3xxResponseCode = s.window3xxResponseCode ∧
      (s.Monitor c).window4xxResponseCode = s.window4xxResponseCode.Add 1 ∧
      (s.Monitor c).window5xxResponseCode = s.window5xxResponseCode) ∧
    (500 ≤ c ∧ c ≤ 599 →
      (s.Monitor c).window2xxResponseCode = s.window2xxResponseCode ∧
      (s.Monitor c).window3xxResponseCode = s.window3xxResponseCode ∧
      (s.Monitor c).window4xxResponseCode = s.window4xxResponseCode ∧
      (s.Monitor c).window5xxResponseCode = s.window5xxResponseCode.Add 1) ∧
    (c < 200 ∨ c > 599 →
      (s.Monitor c).window2xxResponseCode = s.window2xxResponseCode ∧
      (s.Monitor c).window3xxResponseCode = s.window3xxResponseCode ∧
      (s.Monitor c).window4xxResponseCode = s.window4xxResponseCode ∧
      (s.Monitor c).window5xxResponseCode = s.window5xxResponseCode) := by
  unfold Site.Monitor
  refine ⟨?_, ?_, ?_, ?_, ?_⟩ <;> intro h <;> split_ifs <;>
    first
      | omega
      | exact ⟨rfl, rfl, rfl, rfl⟩

/-- C1 at the codes 200, 404 and 700 on a fresh site. -/
theorem Site_Monitor_classes_witness :
    ((NewSite []).Monitor 200).window2xxResponseCode = (NewSite []).window2xxResponseCode.Add 1 ∧
    ((NewSite []).Monitor 404).window4xxResponseCode = (NewSite []).window4xxResponseCode.Add 1 ∧
    ((NewSite []).Monitor 700).window5xxResponseCode = (NewSite []).window5xxResponseCode :=
  ⟨((Site_Monitor_classes (NewSite []) 200).1 (by decide)).1,
   ((Site_Monitor_classes (NewSite []) 404).2.2.1 (by decide)).2.2.1,
   ((Site_Monitor_classes (NewSite []) 700).2.2.2.2 (by decide)).2.2.2⟩

/-! ## The alert state machine -/

theorem alertStep_normal_above (thr : Int) (avg : ℚ) (h : avg > (thr : ℚ)) :
    alertStep thr false avg = (true, [Event.alert]) := by
  have h2 : ¬ avg < (thr : ℚ) := not_lt.mpr (le_of_lt h)
  simp [alertStep, h, h2]

theorem alertStep_normal_not_above (thr : Int) (avg : ℚ) (h : ¬ avg > (thr : ℚ)) :
    alertStep thr false avg = (false, []) := by
  simp [alertStep, h]

theorem alertStep_alerting_below (thr : Int) (avg : ℚ) (h : avg < (thr : ℚ)) :
    alertStep thr true avg = (false, [Event.recovery]) := by
  simp [alertStep, h]

theorem alertStep_alerting_not_below (thr : Int) (avg : ℚ) (h : ¬ avg < (thr : ℚ)) :
    alertStep thr true avg = (true, []) := by
  simp [alertStep, h]

/-- C4: one step of the alert loop. From Normal the step moves to Alerting
and prints one alert exactly when `avg > threshold`, and otherwise changes
and prints nothing; from Alerting it moves to Normal and prints one recovery
exactly when `avg < threshold`, and otherwise changes and prints nothing; at
`avg = threshold` nothing happens in either state; no step prints both. -/
theorem alertStep_spec (thr : Int) (avg : ℚ) :
    (alertStep thr false avg = (true, [Event.alert]) ↔ avg > (thr : ℚ)) ∧
    (¬ avg > (thr : ℚ) → alertStep thr false avg = (false, [])) ∧
    (alertStep thr true avg = (false, [Event.recovery]) ↔ avg < (thr : ℚ)) ∧
    (¬ avg < (thr : ℚ) → alertStep thr true avg = (true, [])) ∧
    (avg = (thr : ℚ) → ∀ t, alertStep thr t avg = (t, [])) ∧
    (∀ t, ¬ (Event.alert ∈ (alertStep thr t avg).2 ∧ Event.recovery ∈ (alertStep thr t avg).2)) ∧
    (∀ t, (alertStep thr t avg).2.length ≤ 1) := by
  refine ⟨⟨fun h => ?_, alertStep_normal_above thr avg⟩, alertStep_normal_not_above thr avg,
    ⟨fun h => ?_, alertStep_alerting_below thr avg⟩, alertStep_alerting_not_below thr avg,
    ?_, ?_, ?_⟩
  · by_contra hn
    rw [alertStep_normal_not_above thr avg hn] at h
    simp at h
  · by_contra hn
    rw [alertStep_alerting_not_below thr avg hn] at h
    simp at h
  · intro he t
    have h1 : ¬ avg > (thr : ℚ) := by rw [he]; exact lt_irrefl _
    have h2 : ¬ avg < (thr : ℚ) := by rw [he]; exact lt_irrefl _
    cases t
    · exact alertStep_normal_not_above thr avg h1
    · exact alertStep_alerting_not_below thr avg h2
  · intro t
    cases t
    · by_cases h : avg > (thr : ℚ)
      · rw [alertStep_normal_above thr avg h]; simp
      · rw [alertStep_normal_not_above thr avg h]; simp
    · by_cases h : avg < (thr : ℚ)
      · rw [alertStep_alerting_below thr avg h]; simp
      · rw [alertStep_alerting_not_below thr avg h]; simp
  · intro t
    cases t
    · by_cases h : avg > (thr : ℚ)
      · rw [alertStep_normal_above thr avg h]; simp
      · rw [alertStep_normal_not_above thr avg h]; simp
    · by_cases h : avg < (thr : ℚ)
      · rw [alertStep_alerting_below thr avg h]; simp
      · rw [alertStep_alerting_not_below thr avg h]; simp

/-- C4 at threshold 10: the samples 11, 10 and 9. -/
theorem alertStep_spec_witness :
    alertStep 10 false 11 = (true, [Event.alert]) ∧
    alertStep 10 true 9 = (false, [Event.recovery]) ∧
    (∀ t, alertStep 10 t 10 = (t, [])) :=
  ⟨(alertStep_spec 10 11).1.mpr (by norm_num),
   (alertStep_spec 10 9).2.2.1.mpr (by norm_num),
   (alertStep_spec 10 10).2.2.2.2.1 (by norm_num)⟩

theorem alertLoop_cons (thr : Int) (t : Bool) (a : ℚ) (rest : List ℚ) :
    alertLoop thr t (a :: rest) =
      (alertStep thr t a).2 ++ alertLoop thr (alertStep thr t a).1 rest := rfl

/-- Adjacent events differ, and the first event is the one the state allows:
an alert from Normal, a recovery from Alerting. -/
theorem alertLoop_alternates (thr : Int) (t : Bool) (samples : List ℚ) :
    (alertLoop thr t samples).Chain' (fun x y => x ≠ y) ∧
    (alertLoop thr t samples).head? ≠
      some (if t = true then Event.alert else Event.recovery) := by
  induction samples generalizing t with
  | nil => simp [alertLoop]
  | cons a rest ih =>
    rw [alertLoop_cons]
    cases t
    · by_cases h : a > (thr : ℚ)
      · rw [alertStep_normal_above thr a h]
        have := ih true
        refine ⟨?_, by simp⟩
        simp only [List.singleton_append, List.chain'_cons']
        refine ⟨?_, this.1⟩
        intro y hy
        have h2 := this.2
        simp only [if_true] at h2
        intro e
        subst e
        exact h2 (by simpa using hy)
      · rw [alertStep_normal_not_above thr a h]
        simpa using ih false
    · by_cases h : a < (thr : ℚ)
      · rw [alertStep_alerting_below thr a h]
        have := ih false
        refine ⟨?_, by simp⟩
        simp only [List.singleton_append, List.chain'_cons']
        refine ⟨?_, this.1⟩
        intro y hy
        have h2 := this.2
        simp only [Bool.false_eq_true, if_false] at h2
        intro e
        subst e
        exact h2 (by simpa using hy)
      · rw [alertStep_alerting_not_below thr a h]
        simpa using ih true

/-- While no sample is below the threshold an alerting loop prints nothing. -/
theorem alertLoop_alerting_quiet (thr : Int) (samples : List ℚ)
    (h : ∀ a ∈ samples, ¬ a < (thr : ℚ)) : alertLoop thr true samples = [] := by
  induction samples with
  | nil => rfl
  | cons a rest ih =>
    rw [alertLoop_cons, alertStep_alerting_not_below thr a (h a (by simp))]
    simpa using ih (fun b hb => h b (by simp [hb]))

/-- An alert printed from Normal needs a sample above the threshold. -/
theorem alertLoop_normal_alert (thr : Int) (samples : List ℚ)
    (h : Event.alert ∈ alertLoop thr false samples) :
    ∃ c, List.Sublist [c] samples ∧ c > (thr : ℚ) := by
  induction samples with
  | nil => simp [alertLoop] at h
  | cons a rest ih =>
    by_cases ha : a > (thr : ℚ)
    · exact ⟨a, by simp, ha⟩
    · rw [alertLoop_cons, alertStep_normal_not_above thr a ha] at h
      obtain ⟨c, hc, hc'⟩ := ih (by simpa using h)
      exact ⟨c, hc.trans (List.sublist_cons_self a rest), hc'⟩

/-- An alert printed from Alerting needs a sample below the threshold and a
later one above it. -/
theorem alertLoop_alerting_alert (thr : Int) (samples : List ℚ)
    (h : Event.alert ∈ alertLoop thr true samples) :
    ∃ b c, List.Sublist [b, c] samples ∧ b < (thr : ℚ) ∧ c > (thr : ℚ) := by
  induction samples with
  | nil => simp [alertLoop] at h
  | cons a rest ih =>
    by_cases ha : a < (thr : ℚ)
    · rw [alertLoop_cons, alertStep_alerting_below thr a ha] at h
      obtain ⟨c, hc, hc'⟩ := alertLoop_normal_alert thr rest (by simpa using h)
      exact ⟨a, c, List.Sublist.cons₂ a hc, ha, hc'⟩
    · rw [alertLoop_cons, alertStep_alerting_not_below thr a ha] at h
      obtain ⟨b, c, hbc, hb, hc⟩ := ih (by simpa using h)
      exact ⟨b, c, hbc.trans (List.sublist_cons_self a rest), hb, hc⟩

/-- Two alerts printed from Normal need a sample above the threshold, a later
one below it and a still later one above it. -/
theorem alertLoop_second_alert (thr : Int) (samples : List ℚ)
    (h : 2 ≤ (alertLoop thr false samples).count Event.alert) :
    ∃ a b c, List.Sublist [a, b, c] samples ∧ a > (thr : ℚ) ∧ b < (thr : ℚ) ∧ c > (thr : ℚ) := by
  induction samples with
  | nil => simp [alertLoop] at h
  | cons a rest ih =>
    by_cases ha : a > (thr : ℚ)
    · rw [alertLoop_cons, alertStep_normal_above thr a ha] at h
      have hpos : 0 < (alertLoop thr true rest).count Event.alert := by
        simp only [List.singleton_append, List.count_cons_self] at h
        omega
      obtain ⟨b, c, hbc, hb, hc⟩ :=
        alertLoop_alerting_alert thr rest (List.count_pos_iff.mp hpos)
      exact ⟨a, b, c, List.Sublist.cons₂ a hbc, ha, hb, hc⟩
    · rw [alertLoop_cons, alertStep_normal_not_above thr a ha] at h
      obtain ⟨x, b, c, hs, hx, hb, hc⟩ := ih (by simpa using h)
      exact ⟨x, b, c, hs.trans (List.sublist_cons_self a rest), hx, hb, hc⟩

/-- C5: started in Normal, the alert loop prints events that alternate,
beginning with an alert: adjacent events differ and the first is not a
recovery. When every one of `N ≥ 1` samples is above the threshold exactly
one alert is printed, and nothing else; and two alerts are printed only if
some sample is above the threshold, a later one below it, and a still later
one above it. -/
theorem AlertHighTraffic_edge_triggered (thr : Int) (samples : List ℚ) :
    ((AlertHighTraffic thr samples).Chain' (fun x y => x ≠ y) ∧
      (AlertHighTraffic thr samples).head? ≠ some Event.recovery) ∧
    (samples ≠ [] → (∀ a ∈ samples, a > (thr : ℚ)) →
      AlertHighTraffic thr samples = [Event.alert]) ∧
    (2 ≤ (AlertHighTraffic thr samples).count Event.alert →
      ∃ a b c, List.Sublist [a, b, c] samples ∧ a > (thr : ℚ) ∧ b < (thr : ℚ) ∧ c > (thr : ℚ)) := by
  unfold AlertHighTraffic
  refine ⟨?_, ?_, alertLoop_second_alert thr samples⟩
  · simpa using alertLoop_alternates thr false samples
  · intro hne hall
    cases samples with
    | nil => exact absurd rfl hne
    | cons a rest =>
      rw [alertLoop_cons, alertStep_normal_above thr a (hall a (by simp))]
      rw [alertLoop_alerting_quiet thr rest]
      · rfl
      · intro b hb
        exact not_lt.mpr (le_of_lt (hall b (by simp [hb])))

/-- C5 at threshold 10 and the samples 11, 12, 13: one alert. -/
theorem AlertHighTraffic_edge_triggered_witness :
    AlertHighTraffic 10 [11, 12, 13] = [Event.alert] :=
  (AlertHighTraffic_edge_triggered 10 [11, 12, 13]).2.1 (by simp) (by
    intro a ha
    simp only [List.mem_cons, List.mem_singleton, List.not_mem_nil, or_false] at ha
    rcases ha with rfl | rfl | rfl <;> norm_num)

/-! ## Ingestion -/

theorem SectionMap.get_store (m : SectionMap) (k k' : GoString) (v : Section) :
    (m.store k v).get k' = if k' = k then some v else m.get k' := by
  induction m with
  | nil =>
    by_cases h : k' = k
    · simp [SectionMap.store, SectionMap.get, h]
    · have h' : ¬ k = k' := fun e => h e.symm
      simp [SectionMap.store, SectionMap.get, h, h']
  | cons e m ih =>
    obtain ⟨k0, v0⟩ := e
    by_cases h0 : k0 = k
    · subst h0
      by_cases h : k' = k0
      · simp [SectionMap.store, SectionMap.get, h]
      · have h' : ¬ k0 = k' := fun e => h e.symm
        simp [SectionMap.store, SectionMap.get, h, h']
    · by_cases h : k0 = k'
      · subst h
        have h' : ¬ k0 = k := h0
        simp [SectionMap.store, SectionMap.get, h0]
      · simp [SectionMap.store, SectionMap.get, h0, h, ih]

theorem SectionMap.store_store (m : SectionMap) (k : GoString) (v w : Section) :
    (m.store k v).store k w = m.store k w := by
  induction m with
  | nil => simp [SectionMap.store]
  | cons e m ih =>
    obtain ⟨k0, v0⟩ := e
    by_cases h0 : k0 = k
    · simp [SectionMap.store, h0]
    · simp [SectionMap.store, h0, ih]

theorem SectionMap.mem_keys_store (m : SectionMap) (k k' : GoString) (v : Section) :
    k' ∈ (m.store k v).keys ↔ k' ∈ m.keys ∨ k' = k := by
  induction m with
  | nil => simp [SectionMap.store, SectionMap.keys]
  | cons e m ih =>
    obtain ⟨k0, v0⟩ := e
    by_cases h0 : k0 = k
    · subst h0
      simp only [SectionMap.store, if_true, SectionMap.keys, List.map_cons, List.mem_cons]
      tauto
    · simp only [SectionMap.keys] at ih
      simp only [SectionMap.store, h0, if_false, SectionMap.keys, List.map_cons,
        List.mem_cons, ih]
      tauto

theorem SectionMap.nodup_keys_store (m : SectionMap) (k : GoString) (v : Section)
    (h : m.keys.Nodup) : (m.store k v).keys.Nodup := by
  induction m with
  | nil => simp [SectionMap.store, SectionMap.keys]
  | cons e m ih =>
    obtain ⟨k0, v0⟩ := e
    have hm : (SectionMap.keys m).Nodup := by
      simp only [SectionMap.keys, List.map_cons, List.nodup_cons] at h
      exact h.2
    have hk0 : k0 ∉ SectionMap.keys m := by
      simp only [SectionMap.keys, List.map_cons, List.nodup_cons] at h
      exact h.1
    by_cases h0 : k0 = k
    · subst h0
      simpa [SectionMap.store, SectionMap.keys] using h
    · have hst : SectionMap.store ((k0, v0) :: m) k v = (k0, v0) :: SectionMap.store m k v := by
        simp [SectionMap.store, h0]
      rw [hst]
      have : SectionMap.keys ((k0, v0) :: SectionMap.store m k v)
          = k0 :: (SectionMap.store m k v).keys := rfl
      rw [this, List.nodup_cons]
      refine ⟨?_, ih hm⟩
      rw [SectionMap.mem_keys_store]
      rintro (h1 | h1)
      · exact hk0 h1
      · exact h0 h1

theorem SectionMap.get_eq_none_iff (m : SectionMap) (k : GoString) :
    m.get k = none ↔ k ∉ m.keys := by
  induction m with
  | nil => simp [SectionMap.get, SectionMap.keys]
  | cons e m ih =>
    obtain ⟨k0, v0⟩ := e
    simp only [SectionMap.keys] at ih
    by_cases h0 : k0 = k
    · simp [SectionMap.get, SectionMap.keys, h0]
    · have h' : ¬ k = k0 := fun e => h0 e.symm
      simp [SectionMap.get, SectionMap.keys, h0, h', ih]

theorem Site.Monitor_sections (s : Site) (c : Int) : (s.Monitor c).sections = s.sections := by
  unfold Site.Monitor
  split_ifs <;> rfl

theorem Site.Monitor_window2Min (s : Site) (c : Int) :
    (s.Monitor c).window2Min = s.window2Min := by
  unfold Site.Monitor
  split_ifs <;> rfl

/-- The method `MonitorLine` never dereferences nil: it returns a site whose 2-minute
window got one `Add(1)` and whose registry holds, under the section name of
the record, the section it worked on after `Section.Monitor`. -/
theorem Site.MonitorLine_eq (s : Site) (line : Line) :
    ∃ s', s.MonitorLine line = some s' ∧
      s'.window2Min = s.window2Min.Add 1 ∧
      s'.sections = s.sections.store (getSection line.Path)
        ((sectionFor s.sections (getSection line.Path)).Monitor line.ResponseCode) := by
  unfold Site.MonitorLine sectionFor
  cases hget : s.sections.get (getSection line.Path) with
  | some sec =>
    simp only [hget, Site.Monitor_sections]
    exact ⟨_, rfl, by simp [Site.Monitor_window2Min], rfl⟩
  | none =>
    simp only [hget, Site.Monitor_sections, SectionMap.get_store, if_true]
    exact ⟨_, rfl, by simp [Site.Monitor_window2Min], by simp [SectionMap.store_store]⟩

theorem Ingested_NewSite (name : GoString) : Ingested (NewSite name) [] where
  total := rfl
  nodup := by simp [NewSite, SectionMap.keys]
  keys := by simp [NewSite, SectionMap.keys]
  section_of := by simp [NewSite, SectionMap.get]

theorem Ingested_step (s s' : Site) (done : List Line) (line : Line)
    (h : Ingested s done) (hs : s.MonitorLine line = some s') :
    Ingested s' (done ++ [line]) := by
  obtain ⟨s'', hs'', hw, hsec⟩ := Site.MonitorLine_eq s line
  rw [hs] at hs''
  cases hs''
  refine ⟨?_, ?_, ?_, ?_⟩
  · rw [hw]
    simp [SlidingWindow.Add, h.total]
  · rw [hsec]
    exact SectionMap.nodup_keys_store _ _ _ h.nodup
  · intro k
    rw [hsec, SectionMap.mem_keys_store, h.keys]
    constructor
    · rintro (⟨r, hr, e⟩ | e)
      · exact ⟨r, by simp [hr], e⟩
      · exact ⟨line, by simp, e.symm⟩
    · rintro ⟨r, hr, e⟩
      rw [List.mem_append, List.mem_singleton] at hr
      rcases hr with hr | hr
      · exact Or.inl ⟨r, hr, e⟩
      · subst hr
        exact Or.inr e.symm
  · intro k sec hk
    rw [hsec, SectionMap.get_store] at hk
    by_cases hkn : k = getSection line.Path
    · rw [if_pos hkn] at hk
      cases hk
      unfold sectionFor
      cases hget : s.sections.get (getSection line.Path) with
      | some sec0 =>
        obtain ⟨h1, h2, h3⟩ := h.section_of _ _ hget
        refine ⟨by simp [Section.Monitor, h1, hkn], ?_, h3⟩
        simp [Section.Monitor, SlidingWindow.Add, h2, hkn, List.countP_append]
      | none =>
        have hnot : getSection line.Path ∉ s.sections.keys :=
          (SectionMap.get_eq_none_iff _ _).mp hget
        have hzero : done.countP (fun r => decide (getSection r.Path = getSection line.Path)) = 0 := by
          rw [List.countP_eq_zero]
          intro r hr hd
          apply hnot
          rw [h.keys]
          exact ⟨r, hr, by simpa using hd⟩
        refine ⟨by simp [Section.Monitor, NewSection, hkn], ?_, rfl, rfl, rfl, rfl⟩
        simp [Section.Monitor, NewSection, SlidingWindow.Add, SlidingWindow.MustNew, hkn,
          List.countP_append, hzero]
    · rw [if_neg hkn] at hk
      obtain ⟨h1, h2, h3⟩ := h.section_of _ _ hk
      refine ⟨h1, ?_, h3⟩
      have : ¬ getSection line.Path = k := fun e => hkn e.symm
      simp [h2, List.countP_append, this]

theorem ingest_Ingested (s : Site) (done rest : List Line) (h : Ingested s done) :
    ∃ s', ingest s rest = some s' ∧ Ingested s' (done ++ rest) := by
  induction rest generalizing s done with
  | nil => exact ⟨s, rfl, by simpa using h⟩
  | cons line rest ih =>
    obtain ⟨s1, hs1, _, _⟩ := Site.MonitorLine_eq s line
    obtain ⟨s', hs', hI⟩ := ih s1 (done ++ [line]) (Ingested_step s s1 done line h hs1)
    refine ⟨s', ?_, by simpa using hI⟩
    simp only [ingest, hs1]
    exact hs'

theorem Site.MonitorLine_name (s : Site) (name : GoString) (line : Line) :
    ({ s with Name := name } : Site).MonitorLine line =
      (s.MonitorLine line).map (fun s' => { s' with Name := name }) := by
  unfold Site.MonitorLine
  simp only [Site.Monitor_sections]
  cases hget : s.sections.get (getSection line.Path) with
  | some sec =>
    simp only [hget, Option.map_some']
    unfold Site.Monitor
    split_ifs <;> rfl
  | none =>
    simp only [SectionMap.get_store, if_true, Option.map_some']
    unfold Site.Monitor
    split_ifs <;> rfl

theorem ingest_name (s : Site) (name : GoString) (records : List Line) :
    ingest { s with Name := name } records =
      (ingest s records).map (fun s' => { s' with Name := name }) := by
  induction records generalizing s with
  | nil => rfl
  | cons line rest ih =>
    simp only [ingest, Site.MonitorLine_name]
    cases s.MonitorLine line with
    | none => rfl
    | some s1 => simpa using ih s1

/-- The registry and the global total after the scenario. -/
theorem ingest_scenario :
    (ingest (NewSite []) scenario).map (fun s =>
      (s.window2Min.added, s.sections.keys, s.sections.get (ascii "/api"))) =
    some (20, [ascii "/api"],
      some { NewSection (ascii "/api") 10 with window10Sec := ⟨20⟩ }) := by
  decide



/-- C2: `MonitorLine` applied to every record of a finite sequence, from a
fresh site, returns a site whose 2-minute window received one `Add(1)` per
record, whose registry has for keys exactly the section names of the
records (each once), and where the section under a key `k` is named `k` and
received in its 10-second window one `Add(1)` per record of section `k`,
whatever the response codes. In the scenario (15 records /api/x with 200 and
5 records /api/y with 404) the registry is the single section "/api" with
total 20, and the global total is 20. -/
theorem ingest_counts (name : GoString) (records : List Line) :
    (∃ s, ingest (NewSite name) records = some s ∧
      s.window2Min.added = records.length ∧
      s.sections.keys.Nodup ∧
      (∀ k, k ∈ s.sections.keys ↔ ∃ r ∈ records, getSection r.Path = k) ∧
      (∀ k, k ∈ s.sections.keys → ∃ sec, s.sections.get k = some sec ∧
        sec.Name = k ∧
        sec.window10Sec.added = records.countP (fun r => decide (getSection r.Path = k)))) ∧
    (∃ s sec, ingest (NewSite name) scenario = some s ∧
      s.window2Min.added = 20 ∧
      s.sections.keys = [ascii "/api"] ∧
      s.sections.get (ascii "/api") = some sec ∧
      sec.Name = ascii "/api" ∧ sec.window10Sec.added = 20) := by
  constructor
  · obtain ⟨s, hs, hI⟩ := ingest_Ingested (NewSite name) [] records (Ingested_NewSite name)
    rw [List.nil_append] at hI
    refine ⟨s, hs, hI.total, hI.nodup, hI.keys, ?_⟩
    intro k hk
    cases hget : s.sections.get k with
    | none => exact absurd hk ((SectionMap.get_eq_none_iff _ _).mp hget)
    | some sec =>
      obtain ⟨h1, h2, _⟩ := hI.section_of k sec hget
      exact ⟨sec, rfl, h1, h2⟩
  · have h := ingest_name (NewSite []) name scenario
    have e : ({ NewSite [] with Name := name } : Site) = NewSite name := rfl
    rw [e] at h
    have hs := ingest_scenario
    cases hi : ingest (NewSite []) scenario with
    | none => rw [hi] at hs; simp at hs
    | some s0 =>
      rw [hi] at hs h
      simp only [Option.map_some', Option.some.injEq, Prod.mk.injEq] at hs
      obtain ⟨h1, h2, h3⟩ := hs
      exact ⟨_, _, h, h1, h2, h3, rfl, rfl⟩

/-- C8: no record ever reaches a class window of a section. After any
sequence of records every section of the registry still has its four class
windows nil, as `NewSection` left them; in the scenario section "/api"
holds 20 in its 10-second window and nothing in a 2xx or 4xx window. -/
theorem ingest_section_class_windows_nil (name : GoString) (records : List Line) :
    (∃ s, ingest (NewSite name) records = some s ∧
      ∀ k sec, s.sections.get k = some sec →
        sec.window2xxResponseCode = none ∧ sec.window3xxResponseCode = none ∧
        sec.window4xxResponseCode = none ∧ sec.window5xxResponseCode = none) ∧
    (∃ s sec, ingest (NewSite name) scenario = some s ∧
      s.sections.get (ascii "/api") = some sec ∧
      sec.window10Sec.added = 20 ∧
      sec.window2xxResponseCode = none ∧ sec.window4xxResponseCode = none) := by
  constructor
  · obtain ⟨s, hs, hI⟩ := ingest_Ingested (NewSite name) [] records (Ingested_NewSite name)
    exact ⟨s, hs, fun k sec hk => (hI.section_of k sec hk).2.2⟩
  · have h := ingest_name (NewSite []) name scenario
    have e : ({ NewSite [] with Name := name } : Site) = NewSite name := rfl
    rw [e] at h
    have hs := ingest_scenario
    cases hi : ingest (NewSite []) scenario with
    | none => rw [hi] at hs; simp at hs
    | some s0 =>
      rw [hi] at hs h
      simp only [Option.map_some', Option.some.injEq, Prod.mk.injEq] at hs
      obtain ⟨_, _, h3⟩ := hs
      exact ⟨_, _, h, h3, rfl, rfl, rfl⟩

/-! ## The queue operations -/

theorem PriorityQueue.Swap_length (pq : PriorityQueue) (i j : Nat) :
    (pq.Swap i j).length = pq.length := by
  unfold PriorityQueue.Swap
  split <;> simp

theorem PriorityQueue.Swap_getElem (pq : PriorityQueue) (i j k : Nat) (a b : Section)
    (ha : pq[i]? = some a) (hb : pq[j]? = some b) :
    (pq.Swap i j)[k]? =
      if k = j then some { a with index := j }
      else if k = i then some { b with index := i } else pq[k]? := by
  have hi : i < pq.length := (List.getElem?_eq_some.mp ha).1
  have hj : j < pq.length := (List.getElem?_eq_some.mp hb).1
  unfold PriorityQueue.Swap
  simp only [ha, hb]
  rw [List.getElem?_set, List.getElem?_set]
  by_cases hkj : k = j
  · subst hkj
    simp [hj]
  · have hjk : ¬ j = k := fun e => hkj e.symm
    by_cases hki : k = i
    · subst hki
      simp [hjk, hkj, hi]
    · have hik : ¬ i = k := fun e => hki e.symm
      simp [hjk, hik, hkj, hki]

theorem PriorityQueue.prioAt_of_getElem (pq : PriorityQueue) (k : Nat) (s : Section)
    (h : pq[k]? = some s) : pq.prioAt k = s.priority := by
  simp [PriorityQueue.prioAt, h]

theorem PriorityQueue.Swap_prioAt (pq : PriorityQueue) (i j k : Nat)
    (hi : i < pq.length) (hj : j < pq.length) :
    (pq.Swap i j).prioAt k =
      if k = j then pq.prioAt i else if k = i then pq.prioAt j else pq.prioAt k := by
  have ha : pq[i]? = some pq[i] := List.getElem?_eq_getElem hi
  have hb : pq[j]? = some pq[j] := List.getElem?_eq_getElem hj
  have hs := PriorityQueue.Swap_getElem pq i j k _ _ ha hb
  unfold PriorityQueue.prioAt
  rw [hs, ha, hb]
  split_ifs <;> rfl

theorem perm_cons_set (α : Type) (t : List α) (j : Nat) (x y : α) (h : t[j]? = some y) :
    (y :: t.set j x).Perm (x :: t) := by
  induction t generalizing j with
  | nil => simp at h
  | cons z t ih =>
    cases j with
    | zero =>
      simp at h
      subst h
      exact List.Perm.swap _ _ _
    | succ j =>
      have h' : t[j]? = some y := by simpa using h
      have := ih j h'
      calc (y :: (z :: t).set (j + 1) x).Perm (z :: y :: t.set j x) := List.Perm.swap _ _ _
        _ |>.Perm (z :: x :: t) := List.Perm.cons z this
        _ |>.Perm (x :: z :: t) := List.Perm.swap _ _ _

theorem perm_set_set (α : Type) (l : List α) (i j : Nat) (x y : α)
    (hi : l[i]? = some x) (hj : l[j]? = some y) :
    ((l.set i y).set j x).Perm l := by
  induction l generalizing i j with
  | nil => simp at hi
  | cons z t ih =>
    cases i with
    | zero =>
      simp at hi
      subst hi
      cases j with
      | zero => simp
      | succ j =>
        have hj' : t[j]? = some y := by simpa using hj
        simpa using perm_cons_set α t j z y hj'
    | succ i =>
      have hi' : t[i]? = some x := by simpa using hi
      cases j with
      | zero =>
        simp at hj
        subst hj
        simpa using perm_cons_set α t i z x hi'
      | succ j =>
        have hj' : t[j]? = some y := by simpa using hj
        simpa using ih i j hi' hj'

theorem PriorityQueue.Swap_perm (pq : PriorityQueue) (i j : Nat) :
    ((pq.Swap i j).map entryOf).Perm (pq.map entryOf) := by
  unfold PriorityQueue.Swap
  split
  · rename_i a b ha hb
    rw [List.map_set, List.map_set]
    have e1 : entryOf { b with index := (i : Int) } = entryOf b := rfl
    have e2 : entryOf { a with index := (j : Int) } = entryOf a := rfl
    rw [e1, e2]
    apply perm_set_set
    · simp [ha]
    · simp [hb]
  · exact List.Perm.refl _

/-! ## `down` and `up` restore the heap condition -/

theorem down_eq (h : PriorityQueue) (i n : Nat) :
    down h i n =
      if 2 * i + 1 ≥ n then h
      else if h.Less (downChild h i n) i = false then h
      else down (h.Swap i (downChild h i n)) (downChild h i n) n := by
  rw [down]
  rfl

theorem downChild_cases (h : PriorityQueue) (i n : Nat) :
    downChild h i n = 2 * i + 1 ∨ (downChild h i n = 2 * i + 2 ∧ 2 * i + 2 < n) := by
  unfold downChild
  split_ifs with hc
  · exact Or.inr ⟨rfl, hc.1⟩
  · exact Or.inl rfl

theorem downChild_max (h : PriorityQueue) (i n k : Nat) (hk : k < n)
    (hp : (k - 1) / 2 = i) (hk0 : 0 < k) :
    h.prioAt k ≤ h.prioAt (downChild h i n) := by
  have hk' : k = 2 * i + 1 ∨ k = 2 * i + 2 := by omega
  unfold downChild
  split_ifs with hc
  · have hlt := hc.2
    simp only [PriorityQueue.Less, decide_eq_true_eq] at hlt
    rcases hk' with e | e
    · rw [e]; exact le_of_lt hlt
    · rw [e]
  · rcases hk' with e | e
    · rw [e]
    · rw [e]
      have h2 : 2 * i + 2 < n := by omega
      have hn : ¬ (h.Less (2 * i + 2) (2 * i + 1) = true) := fun hl => hc ⟨h2, hl⟩
      simp only [PriorityQueue.Less, decide_eq_true_eq] at hn
      exact not_lt.mp hn

theorem DownInv_Swap (h : PriorityQueue) (i n : Nat) (hn : n ≤ h.length)
    (h1 : 2 * i + 1 < n) (hinv : DownInv h i n)
    (hless : h.prioAt (downChild h i n) > h.prioAt i) :
    DownInv (h.Swap i (downChild h i n)) (downChild h i n) n := by
  have hj : downChild h i n = 2 * i + 1 ∨ (downChild h i n = 2 * i + 2 ∧ 2 * i + 2 < n) :=
    downChild_cases h i n
  have hmax := downChild_max h i n
  generalize downChild h i n = j at hj hmax hless ⊢
  have hjn : j < n := by omega
  have hji : (j - 1) / 2 = i := by omega
  have hpr : ∀ k, (h.Swap i j).prioAt k =
      if k = j then h.prioAt i else if k = i then h.prioAt j else h.prioAt k :=
    fun k => PriorityQueue.Swap_prioAt h i j k (by omega) (by omega)
  obtain ⟨c1, c2⟩ := hinv
  constructor
  · intro k hk0 hkn hkp
    rw [hpr k, hpr ((k - 1) / 2)]
    by_cases e1 : k = j
    · subst e1
      have : (k - 1) / 2 = i := hji
      rw [this]
      have hne : ¬ i = k := by omega
      simp only [hne, if_true, if_false]
      exact le_of_lt hless
    · by_cases e2 : k = i
      · subst e2
        have hne1 : ¬ (k - 1) / 2 = j := by omega
        have hne2 : ¬ (k - 1) / 2 = k := by omega
        simp only [e1, hne1, hne2, if_true, if_false]
        exact c2 j (by omega) hjn hji hk0
      · by_cases e3 : (k - 1) / 2 = i
        · have hne1 : ¬ i = j := by omega
          simp only [e1, e2, e3, hne1, if_true, if_false]
          exact hmax k hkn e3 hk0
        · simp only [e1, e2, e3, hkp, if_false]
          exact c1 k hk0 hkn e3
  · intro k hk0 hkn hkp hj0
    rw [hpr k, hpr ((j - 1) / 2)]
    have e1 : ¬ k = j := by omega
    have e2 : ¬ k = i := by omega
    have e3 : ¬ (j - 1) / 2 = j := by omega
    have e4 : (j - 1) / 2 = i := hji
    have e5 : ¬ i = j := by omega
    simp only [e1, e2, e3, e4, e5, if_true, if_false]
    have := c1 k hk0 hkn (by omega)
    rw [hkp] at this
    exact this

theorem down_spec (n : Nat) : ∀ (m : Nat) (h : PriorityQueue) (i : Nat),
    n - i = m → n ≤ h.length → DownInv h i n →
    HeapUpTo (down h i n) n ∧ (down h i n).length = h.length ∧
    ((down h i n).map entryOf).Perm (h.map entryOf) ∧
    ∀ k, n ≤ k → (down h i n)[k]? = h[k]? := by
  intro m
  induction m using Nat.strong_induction_on with
  | _ m ih =>
    intro h i hm hn hinv
    rw [down_eq]
    by_cases h1 : 2 * i + 1 ≥ n
    · rw [if_pos h1]
      refine ⟨?_, rfl, List.Perm.refl _, fun _ _ => rfl⟩
      intro k hk0 hkn
      exact hinv.1 k hk0 hkn (by omega)
    · rw [if_neg h1]
      by_cases h2 : h.Less (downChild h i n) i = false
      · rw [if_pos h2]
        refine ⟨?_, rfl, List.Perm.refl _, fun _ _ => rfl⟩
        intro k hk0 hkn
        by_cases hp : (k - 1) / 2 = i
        · rw [hp]
          have hle : h.prioAt (downChild h i n) ≤ h.prioAt i := by
            simp only [PriorityQueue.Less, decide_eq_false_iff_not, not_lt] at h2
            exact h2
          exact le_trans (downChild_max h i n k hkn hp hk0) hle
        · exact hinv.1 k hk0 hkn hp
      · rw [if_neg h2]
        have hless : h.prioAt (downChild h i n) > h.prioAt i := by
          simp only [PriorityQueue.Less, decide_eq_false_iff_not, not_not] at h2
          exact h2
        have hj := downChild_cases h i n
        have hinv' := DownInv_Swap h i n hn (by omega) hinv hless
        have hlen := PriorityQueue.Swap_length h i (downChild h i n)
        obtain ⟨r1, r2, r3, r4⟩ := ih (n - downChild h i n) (by omega)
          (h.Swap i (downChild h i n)) (downChild h i n) rfl (by omega) hinv'
        refine ⟨r1, by omega, r3.trans (PriorityQueue.Swap_perm _ _ _), ?_⟩
        intro k hk
        rw [r4 k hk]
        have hi' : i < h.length := by omega
        have hj' : downChild h i n < h.length := by omega
        rw [PriorityQueue.Swap_getElem h i (downChild h i n) k _ _
          (List.getElem?_eq_getElem hi') (List.getElem?_eq_getElem hj')]
        have e1 : ¬ k = downChild h i n := by omega
        have e2 : ¬ k = i := by omega
        simp only [e1, e2, if_false]

theorem up_eq (h : PriorityQueue) (j : Nat) :
    up h j =
      if (j - 1) / 2 = j ∨ h.Less j ((j - 1) / 2) = false then h
      else up (h.Swap ((j - 1) / 2) j) ((j - 1) / 2) := by
  rw [up]

theorem UpInv_Swap (h : PriorityQueue) (j : Nat) (hj : j < h.length) (hj0 : (j - 1) / 2 ≠ j)
    (hinv : UpInv h j) (hless : h.prioAt j > h.prioAt ((j - 1) / 2)) :
    UpInv (h.Swap ((j - 1) / 2) j) ((j - 1) / 2) := by
  have hi : (j - 1) / 2 < j := by omega
  generalize hie : (j - 1) / 2 = i at hi hless hj0 ⊢
  have hpr : ∀ k, (h.Swap i j).prioAt k =
      if k = j then h.prioAt i else if k = i then h.prioAt j else h.prioAt k :=
    fun k => PriorityQueue.Swap_prioAt h i j k (by omega) (by omega)
  have hlen := PriorityQueue.Swap_length h i j
  obtain ⟨c1, c2⟩ := hinv
  constructor
  · intro k hk0 hkn hki
    rw [hlen] at hkn
    rw [hpr k, hpr ((k - 1) / 2)]
    by_cases e1 : k = j
    · subst e1
      have hne : ¬ i = k := by omega
      simp only [hie, hne, if_true, if_false]
      exact le_of_lt hless
    · by_cases e2 : (k - 1) / 2 = j
      · have hne : ¬ k = i := by omega
        have hj0' : 0 < j := by omega
        simp only [e1, e2, hne, if_true, if_false]
        have := c2 k hk0 hkn e2 hj0'
        rw [hie] at this
        exact this
      · by_cases e3 : (k - 1) / 2 = i
        · have e5 : ¬ i = j := by omega
          simp only [e1, hki, e2, e3, e5, if_true, if_false]
          have := c1 k hk0 hkn e1
          rw [e3] at this
          exact le_trans this (le_of_lt hless)
        · simp only [e1, hki, e2, e3, if_false]
          exact c1 k hk0 hkn e1
  · intro k hk0 hkn hkp hi0
    rw [hlen] at hkn
    rw [hpr k, hpr ((i - 1) / 2)]
    have e3 : ¬ (i - 1) / 2 = j := by omega
    have e4 : ¬ (i - 1) / 2 = i := by omega
    have hii : h.prioAt i ≤ h.prioAt ((i - 1) / 2) := c1 i hi0 (by omega) (by omega)
    by_cases e1 : k = j
    · have hne : ¬ i = j := by omega
      simp only [e1, e3, e4, if_true, if_false]
      exact hii
    · have e2 : ¬ k = i := by omega
      simp only [e1, e2, e3, e4, if_false]
      have := c1 k hk0 hkn e1
      rw [hkp] at this
      exact le_trans this hii

theorem up_spec : ∀ (j : Nat) (h : PriorityQueue), j < h.length → UpInv h j →
    HeapUpTo (up h j) h.length ∧ (up h j).length = h.length ∧
    ((up h j).map entryOf).Perm (h.map entryOf) := by
  intro j
  induction j using Nat.strong_induction_on with
  | _ j ih =>
    intro h hj hinv
    rw [up_eq]
    by_cases h1 : (j - 1) / 2 = j ∨ h.Less j ((j - 1) / 2) = false
    · rw [if_pos h1]
      refine ⟨?_, rfl, List.Perm.refl _⟩
      intro k hk0 hkn
      by_cases hkj : k = j
      · subst hkj
        rcases h1 with h1 | h1
        · omega
        · simp only [PriorityQueue.Less, decide_eq_false_iff_not, not_lt] at h1
          exact h1
      · exact hinv.1 k hk0 hkn hkj
    · rw [if_neg h1]
      have hne : (j - 1) / 2 ≠ j := fun e => h1 (Or.inl e)
      have hless : h.prioAt j > h.prioAt ((j - 1) / 2) := by
        by_contra hc
        apply h1
        right
        simp only [PriorityQueue.Less, decide_eq_false_iff_not]
        exact hc
      have hinv' := UpInv_Swap h j hj hne hinv hless
      have hlen := PriorityQueue.Swap_length h ((j - 1) / 2) j
      obtain ⟨r1, r2, r3⟩ := ih ((j - 1) / 2) (by omega) (h.Swap ((j - 1) / 2) j)
        (by omega) hinv'
      rw [hlen] at r1 r2
      exact ⟨r1, r2, r3.trans (PriorityQueue.Swap_perm _ _ _)⟩

/-! ## `heap.Push` and `heap.Pop` -/

theorem PriorityQueue.prioAt_append_left (pq l : PriorityQueue) (k : Nat) (hk : k < pq.length) :
    PriorityQueue.prioAt (pq ++ l) k = pq.prioAt k := by
  unfold PriorityQueue.prioAt
  rw [List.getElem?_append_left hk]

theorem PriorityQueue.prioAt_take (pq : PriorityQueue) (n k : Nat) (hk : k < n) :
    PriorityQueue.prioAt (pq.take n) k = pq.prioAt k := by
  unfold PriorityQueue.prioAt
  rw [List.getElem?_take_of_lt hk]

theorem HeapUpTo_root_max (pq : PriorityQueue) (n : Nat) (h : HeapUpTo pq n) :
    ∀ k, k < n → pq.prioAt k ≤ pq.prioAt 0 := by
  intro k
  induction k using Nat.strong_induction_on with
  | _ k ih =>
    intro hk
    by_cases hk0 : k = 0
    · rw [hk0]
    · exact le_trans (h k (by omega) hk) (ih ((k - 1) / 2) (by omega) (by omega))

theorem heapInit_nil : heapInit [] = [] := rfl

theorem HeapUpTo_nil : HeapUpTo [] (List.length ([] : PriorityQueue)) := by
  intro k _ hk
  simp at hk

theorem heapPush_spec (pq : PriorityQueue) (x : Section) (hheap : HeapUpTo pq pq.length) :
    HeapUpTo (heapPush pq x) (heapPush pq x).length ∧
    (heapPush pq x).length = pq.length + 1 ∧
    ((heapPush pq x).map entryOf).Perm (entryOf x :: pq.map entryOf) := by
  unfold heapPush
  have hlen : (pq.Push x).length = pq.length + 1 := by simp [PriorityQueue.Push]
  have hL : (pq.Push x).Len - 1 = pq.length := by
    simp [PriorityQueue.Len, hlen]
  rw [hL]
  have hinv : UpInv (pq.Push x) pq.length := by
    constructor
    · intro k hk0 hkn hkj
      rw [hlen] at hkn
      have hk : k < pq.length := by omega
      unfold PriorityQueue.Push
      rw [PriorityQueue.prioAt_append_left _ _ _ hk,
        PriorityQueue.prioAt_append_left _ _ _ (by omega)]
      exact hheap k hk0 hk
    · intro k hk0 hkn hkp hj0
      rw [hlen] at hkn
      omega
  obtain ⟨r1, r2, r3⟩ := up_spec pq.length (pq.Push x) (by omega) hinv
  refine ⟨by rw [r2]; exact r1, by omega, r3.trans ?_⟩
  unfold PriorityQueue.Push
  rw [List.map_append]
  have e : entryOf { x with index := (pq.length : Int) } = entryOf x := rfl
  simp only [List.map_cons, List.map_nil, e]
  exact List.perm_append_singleton _ _

theorem heapPop_spec (pq : PriorityQueue) (hne : pq ≠ []) (hheap : HeapUpTo pq pq.length) :
    ∃ top pq', heapPop pq = some (top, pq') ∧
      pq'.length + 1 = pq.length ∧
      HeapUpTo pq' pq'.length ∧
      (pq.map entryOf).Perm (entryOf top :: pq'.map entryOf) ∧
      ∀ e ∈ pq.map entryOf, e.2 ≤ top.priority := by
  have hpos : 0 < pq.length := List.length_pos.mpr hne
  have hn : pq.length - 1 < pq.length := by omega
  have ha : pq[0]? = some pq[0] := List.getElem?_eq_getElem hpos
  have hb : pq[pq.length - 1]? = some pq[pq.length - 1] := List.getElem?_eq_getElem hn
  have hswap := fun k => PriorityQueue.Swap_getElem pq 0 (pq.length - 1) k _ _ ha hb
  have hpr := fun k => PriorityQueue.Swap_prioAt pq 0 (pq.length - 1) k hpos hn
  have hslen := PriorityQueue.Swap_length pq 0 (pq.length - 1)
  have hinv : DownInv (pq.Swap 0 (pq.length - 1)) 0 (pq.length - 1) := by
    constructor
    · intro k hk0 hkn hkp
      rw [hpr k, hpr ((k - 1) / 2)]
      have e1 : ¬ k = pq.length - 1 := by omega
      have e2 : ¬ k = 0 := by omega
      have e3 : ¬ (k - 1) / 2 = pq.length - 1 := by omega
      simp only [e1, e2, e3, hkp, if_false]
      exact hheap k hk0 (by omega)
    · intro k _ _ _ h0
      omega
  obtain ⟨r1, r2, r3, r4⟩ := down_spec (pq.length - 1) _ (pq.Swap 0 (pq.length - 1)) 0 rfl
    (by omega) hinv
  obtain ⟨h2, hh2⟩ : ∃ h2, down (pq.Swap 0 (pq.length - 1)) 0 (pq.length - 1) = h2 := ⟨_, rfl⟩
  rw [hh2] at r1 r2 r3 r4
  have hlen2 : h2.length = pq.length := by omega
  have hlast : h2[pq.length - 1]? = some { pq[0] with index := ((pq.length - 1 : Nat) : Int) } := by
    rw [r4 _ (le_refl _), hswap]
    simp
  have hLen : pq.Len = pq.length := rfl
  have hpop : heapPop pq =
      some ({ pq[0] with index := -1 }, h2.take (pq.length - 1)) := by
    unfold heapPop
    rw [hLen, if_neg (by omega), hh2]
    unfold PriorityQueue.Pop
    rw [hlen2, hlast]
  have htake : (h2.take (pq.length - 1)).length = pq.length - 1 := by
    rw [List.length_take]
    omega
  have hsplit : h2 = h2.take (pq.length - 1) ++
      [{ pq[0] with index := ((pq.length - 1 : Nat) : Int) }] := by
    have h3 : h2.take (pq.length - 1 + 1) = h2 := List.take_of_length_le (by omega)
    have h4 := @List.take_succ _ h2 (pq.length - 1)
    rw [h3, hlast] at h4
    exact h4
  refine ⟨_, _, hpop, by omega, ?_, ?_, ?_⟩
  · intro k hk0 hkn
    rw [htake] at hkn
    rw [PriorityQueue.prioAt_take _ _ _ hkn, PriorityQueue.prioAt_take _ _ _ (by omega)]
    exact r1 k hk0 hkn
  · have hp : (pq.map entryOf).Perm (h2.map entryOf) :=
      ((r3.trans (PriorityQueue.Swap_perm _ _ _))).symm
    refine hp.trans ?_
    rw [hsplit, List.map_append]
    rw [← hsplit]
    exact List.perm_append_singleton _ _
  · intro e he
    rw [List.mem_map] at he
    obtain ⟨s, hs, rfl⟩ := he
    obtain ⟨k, hk, rfl⟩ := List.getElem_of_mem hs
    have h1 := HeapUpTo_root_max pq pq.length hheap k hk
    rw [PriorityQueue.prioAt_of_getElem pq k _ (List.getElem?_eq_getElem hk),
      PriorityQueue.prioAt_of_getElem pq 0 _ ha] at h1
    exact h1

/-! ## The summary printer -/

theorem pushSections_spec (total : GoString → Int) (order : List (GoString × Section)) :
    ∀ pq : PriorityQueue, HeapUpTo pq pq.length →
      HeapUpTo (pushSections total order pq) (pushSections total order pq).length ∧
      (pushSections total order pq).length = pq.length + order.length ∧
      ((pushSections total order pq).map entryOf).Perm
        (order.map (sampled total) ++ pq.map entryOf) := by
  induction order with
  | nil =>
    intro pq h
    exact ⟨h, rfl, List.Perm.refl _⟩
  | cons kv rest ih =>
    intro pq h
    obtain ⟨k, v⟩ := kv
    obtain ⟨p1, p2, p3⟩ := heapPush_spec pq (v.PriorityCount (total k)).1 h
    obtain ⟨r1, r2, r3⟩ := ih _ p1
    refine ⟨r1, ?_, ?_⟩
    · simp only [pushSections, r2, p2, List.length_cons]
      omega
    · simp only [pushSections]
      refine r3.trans ?_
      have e : entryOf (v.PriorityCount (total k)).1 = sampled total (k, v) := rfl
      rw [e] at p3
      simp only [List.map_cons, List.cons_append]
      exact (List.Perm.append_left _ p3).trans List.perm_middle

theorem popLoop_spec : ∀ (k i : Nat) (pq : PriorityQueue),
    HeapUpTo pq pq.length → k ≤ pq.length →
    ∃ es rest : List (GoString × Int), popLoop k i pq = some (es.map entryLine) ∧
      es.length = min k (if i > 4 then 1 else 6 - i) ∧
      (es ++ rest).Perm (pq.map entryOf) ∧
      es.Pairwise (fun a b => b.2 ≤ a.2) ∧
      ∀ r ∈ rest, ∀ e ∈ es, r.2 ≤ e.2 := by
  intro k
  induction k with
  | zero =>
    intro i pq _ _
    exact ⟨[], pq.map entryOf, rfl, by simp, List.Perm.refl _, List.Pairwise.nil, by simp⟩
  | succ k ih =>
    intro i pq hheap hk
    have hne : pq ≠ [] := by
      intro e
      rw [e] at hk
      simp at hk
    obtain ⟨top, pq', hpop, hlen, hheap', hperm, hmax⟩ := heapPop_spec pq hne hheap
    have hmax' : ∀ e ∈ pq'.map entryOf, e.2 ≤ top.priority := by
      intro e he
      exact hmax e (hperm.symm.subset (List.mem_cons_of_mem _ he))
    by_cases hi : i > 4
    · refine ⟨[entryOf top], pq'.map entryOf, ?_, ?_, ?_, ?_, ?_⟩
      · simp only [popLoop, hpop, if_pos hi]
        rfl
      · simp [hi]
      · exact hperm.symm
      · simp
      · intro r hr e he
        rw [List.mem_singleton] at he
        subst he
        exact hmax' r hr
    · obtain ⟨es, rest, h1, h2, h3, h4, h5⟩ := ih (i + 1) pq' hheap' (by omega)
      have hsub : ∀ e ∈ es ++ rest, e.2 ≤ top.priority :=
        fun e he => hmax' e (h3.subset he)
      refine ⟨entryOf top :: es, rest, ?_, ?_, ?_, ?_, ?_⟩
      · simp only [popLoop, hpop, if_neg hi, h1]
        rfl
      · rw [List.length_cons, h2, if_neg hi]
        split_ifs <;> omega
      · exact ((List.Perm.cons _ h3).trans hperm.symm)
      · rw [List.pairwise_cons]
        exact ⟨fun e he => hsub e (List.mem_append_left _ he), h4⟩
      · intro r hr e he
        rw [List.mem_cons] at he
        rcases he with he | he
        · subst he
          exact hsub r (List.mem_append_right _ hr)
        · exact h5 r hr e he

theorem sectionEntries_append (a b : List OutLine) :
    sectionEntries (a ++ b) = sectionEntries a ++ sectionEntries b := by
  induction a with
  | nil => rfl
  | cons x a ih =>
    cases x <;> simp [sectionEntries, ih]

theorem sectionEntries_entryLine (es : List (GoString × Int)) :
    sectionEntries (es.map entryLine) = es := by
  induction es with
  | nil => rfl
  | cons e es ih =>
    obtain ⟨n, c⟩ := e
    simp [sectionEntries, entryLine, ih]

theorem noTraffic_not_mem_entryLine (es : List (GoString × Int)) :
    OutLine.noTraffic ∉ es.map entryLine := by
  simp [entryLine]

/-- What one call of `printTopSections` prints: the header, the notice when
the registry is empty, the entries of `min n 6` sections taken from the top
of the heap, and the footer. -/
theorem printTopSections_core (s : Site) (order : List (GoString × Section))
    (total : GoString → Int) (hperm : order.Perm s.sections) :
    ∃ es rest : List (GoString × Int),
      s.printTopSections order total =
        some ([OutLine.header] ++ (if s.sections.length ≤ 0 then [OutLine.noTraffic] else []) ++
          es.map entryLine ++ [OutLine.footer]) ∧
      es.length = min s.sections.length 6 ∧
      (es ++ rest).Perm (s.sections.map (sampled total)) ∧
      es.Pairwise (fun a b => b.2 ≤ a.2) ∧
      ∀ r ∈ rest, ∀ e ∈ es, r.2 ≤ e.2 := by
  obtain ⟨p1, p2, p3⟩ := pushSections_spec total order [] HeapUpTo_nil
  have hlen : order.length = s.sections.length := hperm.length_eq
  obtain ⟨es, rest, h1, h2, h3, h4, h5⟩ :=
    popLoop_spec s.sections.length 0 (pushSections total order []) p1 (by rw [p2]; simp [hlen])
  refine ⟨es, rest, ?_, by simpa using h2, ?_, h4, h5⟩
  · simp only [Site.printTopSections, heapInit_nil, h1]
  · refine h3.trans (p3.trans ?_)
    simp only [List.map_nil, List.append_nil]
    exact hperm.map _

theorem printTopSections_entries (s : Site) (order : List (GoString × Section))
    (total : GoString → Int) (hperm : order.Perm s.sections) :
    ∃ out, ∃ rest : List (GoString × Int),
      s.printTopSections order total = some out ∧
      (OutLine.noTraffic ∈ out ↔ s.sections = []) ∧
      (sectionEntries out).length = min s.sections.length 6 ∧
      (sectionEntries out ++ rest).Perm (s.sections.map (sampled total)) ∧
      (sectionEntries out).Pairwise (fun a b => b.2 ≤ a.2) ∧
      ∀ r ∈ rest, ∀ e ∈ sectionEntries out, r.2 ≤ e.2 := by
  obtain ⟨es, rest, h1, h2, h3, h4, h5⟩ := printTopSections_core s order total hperm
  have hse : sectionEntries ([OutLine.header] ++
      (if s.sections.length ≤ 0 then [OutLine.noTraffic] else []) ++
        es.map entryLine ++ [OutLine.footer]) = es := by
    simp only [sectionEntries_append, sectionEntries_entryLine]
    split_ifs <;> simp [sectionEntries]
  refine ⟨_, rest, h1, ?_, ?_, ?_, ?_, ?_⟩
  · have hnot := noTraffic_not_mem_entryLine es
    by_cases hs : s.sections = []
    · simp [hs]
    · have hpos : ¬ s.sections.length ≤ 0 := by
        have := List.length_pos.mpr hs
        omega
      simp only [hpos, if_false, hs, iff_false]
      simp only [List.append_nil, List.mem_append, List.mem_singleton, not_or]
      exact ⟨⟨by simp, hnot⟩, by simp⟩
  · rw [hse]; exact h2
  · rw [hse]; exact h3
  · rw [hse]; exact h4
  · rw [hse]; exact h5

/-- C6: with six sections in the registry (six records of six sections
ingested by a fresh site) one call of `printTopSections` prints six section
entries, one more than the five of its header. -/
theorem printTopSections_prints_six :
    ∃ s out, ingest (NewSite (ascii "DataDog")) sixRecords = some s ∧
      s.sections.length = 6 ∧
      s.printTopSections s.sections (fun _ => 1) = some out ∧
      (sectionEntries out).length = 6 := by
  have h : (ingest (NewSite (ascii "DataDog")) sixRecords).map (fun s => s.sections.length)
      = some 6 := by decide
  cases hi : ingest (NewSite (ascii "DataDog")) sixRecords with
  | none => rw [hi] at h; simp at h
  | some s =>
    rw [hi] at h
    simp only [Option.map_some', Option.some.injEq] at h
    obtain ⟨out, rest, h1, _, h3, _⟩ :=
      printTopSections_entries s s.sections (fun _ => 1) (List.Perm.refl _)
    rw [h] at h3
    exact ⟨s, out, rfl, h, h1, h3⟩

/-- C7: whatever the order in which the map iteration yields the registry
and whatever the totals sampled, `printTopSections` returns, and the section
entries it prints are entries of distinct positions of the registry (with
the rest of the registry they make up a permutation of it; their names are
pairwise distinct when the registry stores every section under its name),
stand in non-increasing order of count, and no entry left out has a count
above that of a printed one. -/
theorem printTopSections_ranked (s : Site) (order : List (GoString × Section))
    (total : GoString → Int) (hperm : order.Perm s.sections) :
    ∃ out, ∃ rest : List (GoString × Int),
      s.printTopSections order total = some out ∧
      (sectionEntries out ++ rest).Perm (s.sections.map (sampled total)) ∧
      (sectionEntries out).Pairwise (fun a b => b.2 ≤ a.2) ∧
      (∀ r ∈ rest, ∀ e ∈ sectionEntries out, r.2 ≤ e.2) ∧
      (s.sections.keys.Nodup → (∀ kv ∈ s.sections, kv.2.Name = kv.1) →
        ((sectionEntries out).map Prod.fst).Nodup) := by
  obtain ⟨out, rest, h1, _, _, h3, h4, h5⟩ := printTopSections_entries s order total hperm
  refine ⟨out, rest, h1, h3, h4, h5, ?_⟩
  intro hnd hname
  have hp := h3.map Prod.fst
  have hkeys : (s.sections.map (sampled total)).map Prod.fst = s.sections.keys := by
    rw [List.map_map]
    unfold SectionMap.keys
    apply List.map_congr_left
    intro kv hkv
    exact hname kv hkv
  rw [hkeys, List.map_append] at hp
  have hnd' := (hp.nodup_iff).mpr hnd
  exact (List.nodup_append.mp hnd').1

/-- C7 on the registry `twoSections`, iterated from "/b" to "/a". -/
theorem printTopSections_ranked_witness :
    (twoSections.reverse).Perm twoSite.sections ∧
    ∃ out, ∃ rest : List (GoString × Int),
      twoSite.printTopSections twoSections.reverse twoTotals = some out ∧
      (sectionEntries out ++ rest).Perm (twoSite.sections.map (sampled twoTotals)) ∧
      (sectionEntries out).Pairwise (fun a b => b.2 ≤ a.2) ∧
      (∀ r ∈ rest, ∀ e ∈ sectionEntries out, r.2 ≤ e.2) ∧
      (twoSite.sections.keys.Nodup → (∀ kv ∈ twoSite.sections, kv.2.Name = kv.1) →
        ((sectionEntries out).map Prod.fst).Nodup) :=
  ⟨List.reverse_perm _,
    printTopSections_ranked twoSite twoSections.reverse twoTotals (List.reverse_perm _)⟩

/-- C10: with fewer than 5 sections in the registry `printTopSections`
prints one entry for each section of the registry and no other; and, for a
registry of any size, the no-traffic notice is printed exactly when the
registry is empty, in which case no section entry is printed. -/
theorem printTopSections_few (s : Site) (order : List (GoString × Section))
    (total : GoString → Int) (hperm : order.Perm s.sections) :
    ∃ out, s.printTopSections order total = some out ∧
      (s.sections.length < 5 →
        (sectionEntries out).length = s.sections.length ∧
        (sectionEntries out).Perm (s.sections.map (sampled total))) ∧
      (OutLine.noTraffic ∈ out ↔ s.sections = []) ∧
      (s.sections = [] → sectionEntries out = []) := by
  obtain ⟨out, rest, h1, h2, h3, h4, _⟩ := printTopSections_entries s order total hperm
  refine ⟨out, h1, ?_, h2, ?_⟩
  · intro hn
    have hlen : (sectionEntries out).length = s.sections.length := by omega
    refine ⟨hlen, ?_⟩
    have hl := h4.length_eq
    rw [List.length_append, List.length_map] at hl
    have hrest : rest = [] := List.length_eq_zero.mp (by omega)
    rw [hrest, List.append_nil] at h4
    exact h4
  · intro he
    rw [he] at h3
    exact List.length_eq_zero.mp (by simpa using h3)

/-- C10 on the registry `twoSections`: two entries, no notice. -/
theorem printTopSections_few_witness :
    (twoSections.reverse).Perm twoSite.sections ∧
    ∃ out, twoSite.printTopSections twoSections.reverse twoTotals = some out ∧
      (sectionEntries out).length = 2 ∧
      (sectionEntries out).Perm (twoSite.sections.map (sampled twoTotals)) ∧
      OutLine.noTraffic ∉ out := by
  refine ⟨List.reverse_perm _, ?_⟩
  obtain ⟨out, h1, h2, h3, _⟩ :=
    printTopSections_few twoSite twoSections.reverse twoTotals (List.reverse_perm _)
  have hn : twoSite.sections.length < 5 := by decide
  have hne : ¬ twoSite.sections = [] := by decide
  exact ⟨out, h1, (h2 hn).1, (h2 hn).2, fun hm => hne (h3.mp hm)⟩

end Logmon
